import Mathlib

/-!
Verification of the siterender rendering pipeline (src/src/logic.ts and the
companion single-file revision in the same module).

The development shallowly embeds the pure logic of the pipeline:
  * a character-level model of the Node.js posix `path` helpers
    (`path.join`, `path.extname`) and of WHATWG URL path normalization,
    used by `getFilePath`;
  * the parsed-sitemap data model and the resolvers `parseSitemap`,
    `getUrls` and `processSitemapIndex`;
  * the URL rewriter (`parseUrlReplacement` and the `startsWith`-guarded
    replace in `processQueue`);
  * the retry/backoff wrapper `retryRenderPage`;
  * the file-system effects of `renderPage` at the mapped path.
-/

namespace Siterender

/-! ## Character-level path utilities

Strings are handled through their character lists.  `splitOnCh` splits a
character list on a separator, keeping empty pieces, exactly like the string
split used by `path.join`/`path.normalize` and by `String.prototype.split`.
-/

/-- Prepend a character to the first piece of a split, used by `splitOnCh`. -/
def consHead (c : Char) : List (List Char) → List (List Char)
  | [] => [[c]]
  | s :: ss => (c :: s) :: ss

/-- Split a character list on a separator character, keeping empty pieces. -/
def splitOnCh (sep : Char) : List Char → List (List Char)
  | [] => [[]]
  | c :: cs => if c = sep then [] :: splitOnCh sep cs else consHead c (splitOnCh sep cs)

/-- Join pieces with a separator character, the inverse of `splitOnCh`. -/
def intercalateCh (sep : Char) : List (List Char) → List Char
  | [] => []
  | [s] => s
  | s :: rest => s ++ sep :: intercalateCh sep rest

/-- Split a posix path into its `/`-separated segments. -/
def splitSeg : List Char → List (List Char) := splitOnCh '/'

/-- Join posix path segments with `/`. -/
def intercalateSlash : List (List Char) → List Char := intercalateCh '/'

/-- The path segment consisting of a single dot. -/
def dotSeg : List Char := ['.']

/-- The parent-directory path segment consisting of two dots. -/
def dotdotSeg : List Char := ['.', '.']

/-- One step of the Node function `normalizeString`: empty and `.` segments are dropped,
`..` pops the most recent segment (kept when nothing can be popped and the
path is relative, i.e. `allowUp` is true), other segments are pushed.  The
accumulator keeps the segments in reverse order. -/
def normStep (allowUp : Bool) (acc : List (List Char)) (s : List Char) : List (List Char) :=
  if s = [] ∨ s = dotSeg then acc
  else if s = dotdotSeg then
    match acc with
    | [] => if allowUp then [s] else []
    | t :: ts => if t = dotdotSeg then s :: t :: ts else ts
  else s :: acc

/-- Normalize a segment list as the Node function `path.normalize` does: resolve `.` and
`..` segments and collapse repeated separators. -/
def normSegs (allowUp : Bool) (l : List (List Char)) : List (List Char) :=
  (l.foldl (normStep allowUp) []).reverse

/-- Model of posix `path.join(a, b)` for the two-argument form used by
`getFilePath`: concatenate with a separator, then normalize, preserving a
leading separator (absolute path) and a trailing separator. -/
def pathJoinChars (a b : List Char) : List Char :=
  let s := a ++ '/' :: b
  if s.head? = some '/' then
    let core := intercalateSlash (normSegs false (splitSeg s))
    if core = [] then ['/']
    else ('/' :: core) ++ (if s.getLast? = some '/' then ['/'] else [])
  else
    let core := intercalateSlash (normSegs true (splitSeg s))
    if core = [] then ['.']
    else core ++ (if s.getLast? = some '/' then ['/'] else [])

/-- Index of the last dot of a character list (used for `path.extname`). -/
def lastDotIdx : List Char → Nat → Option Nat
  | [], _ => none
  | c :: cs, i =>
    match lastDotIdx cs (i + 1) with
    | some j => some j
    | none => if c = '.' then some i else none

/-- Extension of a basename, following the Node function `path.extname`: the suffix from
the last dot, unless that dot is the leading character of the basename or the
basename is `..`. -/
def extnameOfBase (b : List Char) : List Char :=
  if b = dotdotSeg then []
  else
    match lastDotIdx b 0 with
    | some j => if j = 0 then [] else b.drop j
    | none => []

/-- Model of posix `path.extname`: the extension of the final path segment. -/
def extnameChars (p : List Char) : List Char :=
  extnameOfBase ((splitSeg p).getLastD [])

/-! ## WHATWG URL path normalization

`new URL(url)` parses and normalizes the path: `.` segments are dropped and
`..` segments pop the previous segment, with an empty segment appended when a
dot segment is final (preserving the trailing slash).  The model works on the
raw path characters after the authority; percent-encoded dot segments, which
the URL standard also treats as dots, are not modeled separately — either
way no literal `.`/`..` segment survives parsing. -/

/-- Core of the WHATWG path state machine over the raw `/`-separated
segments; the accumulator keeps output segments in reverse order. -/
def urlSegsAux (acc : List (List Char)) : List (List Char) → List (List Char)
  | [] => acc.reverse
  | s :: rest =>
    if s = dotdotSeg then
      if rest = [] then urlSegsAux ([] :: acc.tail) rest else urlSegsAux acc.tail rest
    else if s = dotSeg then
      if rest = [] then urlSegsAux ([] :: acc) rest else urlSegsAux acc rest
    else urlSegsAux (s :: acc) rest

/-- Drop one leading slash from a raw path, if present. -/
def stripLeadingSlash : List Char → List Char
  | '/' :: rest => rest
  | l => l

/-- The `pathname` of an http URL whose raw path part is `raw`: a leading
slash followed by the normalized segments. -/
def urlPathnameChars (raw : List Char) : List Char :=
  '/' :: intercalateSlash (urlSegsAux [] (splitSeg (stripLeadingSlash raw)))

/-- String-level wrapper for `urlPathnameChars`. -/
def urlPathname (raw : String) : String :=
  String.mk (urlPathnameChars raw.data)

/-! ## The path mapper `getFilePath`

Translated from `getFilePath` (src/src/logic.ts, lines 230-239):

    let pathName = parsedUrl.pathname;
    if (pathName.endsWith('/')) {
        pathName = `${pathName}index.html`;
    } else if (!path.extname(pathName)) {
        pathName = `${pathName}/index.html`;
    }
    return path.join(outputDir, pathName);

The WHATWG `URL` object is modeled by its components; `getFilePath` reads
only the `pathname` component. -/

/-- Components of a parsed WHATWG URL, as produced by `new URL(url)`. -/
structure ParsedUrl where
  protocol : String
  host : String
  port : String
  search : String
  hash : String
  pathname : String

/-- The characters of the literal `"index.html"`. -/
def ihChars : List Char := "index.html".data

/-- The branch structure of `getFilePath` on the pathname: a pathname ending
in `/` gets `index.html` appended, a pathname with no extension gets
`/index.html` appended, any other pathname is kept. -/
def modifiedPath (p : List Char) : List Char :=
  if p.getLast? = some '/' then p ++ ihChars
  else if extnameChars p = [] then p ++ '/' :: ihChars
  else p

/-- Character-level body of `getFilePath`. -/
def getFilePathChars (p outputDir : List Char) : List Char :=
  pathJoinChars outputDir (modifiedPath p)

/-- The path mapper `getFilePath(parsedUrl, outputDir)`. -/
def getFilePath (parsedUrl : ParsedUrl) (outputDir : String) : String :=
  String.mk (getFilePathChars (ParsedUrl.pathname parsedUrl).data outputDir.data)

/-- A `ParsedUrl` with the given pathname and `http` scheme defaults; used to
state concrete instances. -/
def mkUrl (hostName pathName : String) : ParsedUrl :=
  { protocol := "http:", host := hostName, port := "", search := "", hash := ""
    pathname := pathName }

/-! ## Sitemap data model and resolvers

`fast-xml-parser` with default options turns a sitemap document into a plain
object: a repeated tag parses to an array of objects, a tag appearing once
parses to a single object (not a one-element array), a present-but-different
child leaves the member undefined.  The shapes the resolvers inspect are:
  * a truthy `urlset` whose `url` member is an array (`urlsetMany`), a
    single object (`urlsetOne`), or undefined (`urlsetNoUrl`, e.g. content
    like a `urlset` element holding a bare `loc` child);
  * a truthy `sitemapindex` whose `sitemap` member is an array
    (`indexDocs`), a single object (`indexOneDoc`), or undefined
    (`indexNoSitemap`);
  * anything else — empty or malformed input parses to an object with
    neither key, or to a falsy value (`otherDoc`).
In the index cases each child node stands for the parsed form of the
document fetched from the `loc` of the child reference, folding the fetch
into the model.  Arrays produced by the default parser always have at least
two elements, but the functions below model the JavaScript array semantics
faithfully at every length.  A resolver returns `none` where the JavaScript
code throws a `TypeError`, `some urls` where it returns normally. -/

/-- A `<url>` entry of a urlset, as parsed: an object with a `loc` field. -/
structure UrlEntry where
  loc : String

/-- Parsed shape of one sitemap document. -/
inductive XmlNode where
  | urlsetOne : UrlEntry → XmlNode
  | urlsetMany : List UrlEntry → XmlNode
  | urlsetNoUrl : XmlNode
  | indexOneDoc : XmlNode → XmlNode
  | indexDocs : List XmlNode → XmlNode
  | indexNoSitemap : XmlNode
  | otherDoc : XmlNode

/-- Translated from `parseSitemap` (src/src/logic.ts, lines 75-84): if the
parsed content has a truthy `urlset`, return the `loc` of each entry,
normalizing the single-entry encoding to a one-element array; a `urlset`
without a `url` member makes `Array.isArray` fail and the code evaluate
`sitemap.urlset.url.loc` on `undefined`, throwing a `TypeError` (`none`);
any other shape returns `[]`. -/
def parseSitemap : XmlNode → Option (List String)
  | .urlsetMany us => some (us.map UrlEntry.loc)
  | .urlsetOne u => some [UrlEntry.loc u]
  | .urlsetNoUrl => none
  | _ => some []

/-- The `for (const map of sitemaps)` loop of `getUrls` (src/src/logic.ts,
lines 58-62): fetch each referenced sub-sitemap in order and append
`parseSitemap` of its content (`urls = urls.concat(...)`), propagating a
thrown error. -/
def getUrlsLoop : List XmlNode → Option (List String)
  | [] => some []
  | t :: ts =>
    match parseSitemap t with
    | none => none
    | some us =>
      match getUrlsLoop ts with
      | none => none
      | some rest => some (us ++ rest)

/-- Translated from `getUrls` (src/src/logic.ts, lines 45-68): if the top
document has a truthy `sitemapindex`, normalize its `sitemap` member with
`Array.isArray` (a single object becomes a one-element array, an undefined
member becomes `[undefined]`, whose `loc` access then throws) and run the
fetch-and-parse loop; otherwise parse the document itself.  The sub-sitemaps
are parsed with `parseSitemap`, which ignores a nested index shape. -/
def getUrls : XmlNode → Option (List String)
  | .indexDocs ts => getUrlsLoop ts
  | .indexOneDoc t => getUrlsLoop [t]
  | .indexNoSitemap => none
  | t => parseSitemap t

mutual

/-- Translated from `processSitemapIndex` (src/src/logic.ts, lines 434-460):
when `sitemapindex && sitemapindex.sitemap` holds, iterate
`for (const sitemap of parsedSitemap.sitemapindex.sitemap)` — with no
`Array.isArray` normalization, so a single-entry index parses to a plain
object, which is not iterable, and the loop throws a `TypeError` (`none`);
an array resolves each referenced document recursively in order,
concatenating the results; otherwise a urlset with a `url` member resolves
to its `loc` entries (single entry normalized here, lines 453-455); any
other shape resolves to `[]`. -/
def processSitemapIndex : XmlNode → Option (List String)
  | .indexDocs ts => processSitemapList ts
  | .indexOneDoc _ => none
  | .indexNoSitemap => some []
  | .urlsetMany us => some (us.map UrlEntry.loc)
  | .urlsetOne u => some [UrlEntry.loc u]
  | .urlsetNoUrl => some []
  | .otherDoc => some []

/-- The `for (const sitemap of ...)` loop of `processSitemapIndex` over an
array-encoded index: resolve each child in order and append
(`urls = urls.concat(nestedUrls)`), propagating a thrown error. -/
def processSitemapList : List XmlNode → Option (List String)
  | [] => some []
  | t :: ts =>
    match processSitemapIndex t with
    | none => none
    | some us =>
      match processSitemapList ts with
      | none => none
      | some rest => some (us ++ rest)

end

/-! ## URL rewriter -/

/-- The parsed replace rule (src/src/logic.ts, lines 17-20). -/
structure UrlReplacement where
  newPrefix : String
  oldPrefix : String

/-- Replace the first occurrence of `old` in a character list by `new`,
leaving the list unchanged when `old` does not occur; the core of
the JavaScript method `String.prototype.replace` called with string arguments. -/
def replaceFirstChars (old new : List Char) : List Char → List Char
  | [] => if old = [] then new else []
  | c :: cs =>
    if List.isPrefixOf old (c :: cs) then new ++ (c :: cs).drop old.length
    else c :: replaceFirstChars old new cs

/-- Translated from `parseUrlReplacement` (src/src/logic.ts, lines 107-110):
`const [newPrefix, oldPrefix] = replaceUrl.split('=')`.  A missing component
(rule without `=`, which upstream validation rejects) is modeled as the
empty string. -/
def parseUrlReplacement (replaceUrl : String) : UrlReplacement :=
  match splitOnCh '=' replaceUrl.data with
  | [] => ⟨"", ""⟩
  | [n] => ⟨String.mk n, ""⟩
  | n :: o :: _ => ⟨String.mk n, String.mk o⟩

/-- The per-URL rewrite performed by `processQueue` (src/src/logic.ts, lines
156-158) right after dequeuing: if a replacement is configured and the URL
starts with the old prefix, replace (the first occurrence, hence the leading
prefix) by the new prefix, else keep the URL. -/
def applyReplacement (rep : Option UrlReplacement) (url : String) : String :=
  match rep with
  | none => url
  | some ⟨np, op⟩ =>
    if List.isPrefixOf op.data url.data then
      String.mk (replaceFirstChars op.data np.data url.data)
    else url

/-! ## Render coordinator and queue -/

/-- The shared queue as seeded by `renderPages` (src/src/logic.ts, line 129):
`const queue = [...urls]` — a copy of the resolved URL list, with no rewrite
applied. -/
def initialQueue (urls : List String) : List String := urls

/-- The URLs actually rendered by the `processQueue` loop (src/src/logic.ts,
lines 154-161), in dequeue order: each dequeued URL is rewritten by
`applyReplacement` and then rendered. -/
def processQueueUrls (rep : Option UrlReplacement) : List String → List String
  | [] => []
  | url :: rest => applyReplacement rep url :: processQueueUrls rep rest

/-- The number of worker tasks created by the `for (let i = 0; i <
parallelRenders; i++)` loop of `renderPages` (src/src/logic.ts, lines
132-134): zero when `parallelRenders` is zero or negative. -/
def workerCountOf (parallelRenders : Int) : Nat := parallelRenders.toNat

/-- Cooperative-scheduling model of `renderPages` (src/src/logic.ts, lines
121-137), under the assumption that individual renders succeed: with no
workers the queue is never touched and `Promise.all([])` resolves
successfully; with at least one worker the shared queue is drained in FIFO
order.  Returns the rendered URLs in order and the overall success flag. -/
def renderPages (parallelRenders : Int) (rep : Option UrlReplacement)
    (urls : List String) : List String × Bool :=
  if workerCountOf parallelRenders = 0 then ([], true)
  else (processQueueUrls rep (initialQueue urls), true)

/-! ## Retry wrapper -/

/-- The backoff delay before retrying after a failure of the 0-based
`attempt`, in milliseconds (src/src/logic.ts, line 185). -/
def backoffMs (attempt : Nat) : ℚ := min (2 ^ attempt * 1000) 8000

/-- Body of the `for (let attempt = 0; attempt <= maxRetries; attempt++)`
loop of `retryRenderPage` (src/src/logic.ts, lines 177-193).  `ok i` tells
whether the render attempt numbered `i` succeeds, `rand i` is the value of
`Math.random()` drawn after a failure of attempt `i`.  The second argument
counts the attempts still allowed (initially `maxRetries + 1`).  Returns the
number of attempts performed, the list of waits slept between attempts, and
whether the loop ended in success (`false` models `process.exit(1)`). -/
def retryGo (ok : Nat → Bool) (rand : Nat → ℚ) (attempt : Nat) :
    Nat → Nat × List ℚ × Bool
  | 0 => (0, [], false)
  | n + 1 =>
    if ok attempt then (1, [], true)
    else if n = 0 then (1, [], false)
    else
      let r := retryGo ok rand (attempt + 1) n
      (r.1 + 1, (backoffMs attempt + rand attempt * 1000) :: r.2.1, r.2.2)

/-- Translated from `retryRenderPage` (src/src/logic.ts, lines 171-194): run
the attempt loop starting at attempt 0 with `maxRetries + 1` attempts
allowed. -/
def retryRenderPage (maxRetries : Nat) (ok : Nat → Bool) (rand : Nat → ℚ) :
    Nat × List ℚ × Bool :=
  retryGo ok rand 0 (maxRetries + 1)

/-! ## File-system effects of `renderPage` at the mapped path -/

/-- State of the file system at the mapped file path: whether the parent
directory exists and the content of the file at that exact path, if any. -/
structure PathState where
  dirExists : Bool
  file : Option String
  deriving DecidableEq, Repr

/-- Translated from `ensureDirectoryExistence` (src/src/logic.ts, lines
245-255): create the parent directory recursively when it does not exist. -/
def ensureDirectoryExistence (s : PathState) : PathState :=
  if s.dirExists then s else { s with dirExists := true }

/-- Translated from `deletePreviousFile` (src/src/logic.ts, lines 261-270):
remove the file at the mapped path when it exists. -/
def deletePreviousFile (s : PathState) : PathState :=
  match s.file with
  | some _ => { s with file := none }
  | none => s

/-- File-system effect of one `renderPage` call (src/src/logic.ts, lines
202-222) at the mapped path, in statement order: ensure the directory, delete
the previous file, then navigate; on navigation/capture success (`navOk`)
write the rendered markup, on failure re-throw leaving the state as it is at
that point.  Returns the final state and whether the call succeeded. -/
def renderPage (navOk : Bool) (html : String) (s : PathState) : PathState × Bool :=
  let s1 := ensureDirectoryExistence s
  let s2 := deletePreviousFile s1
  if navOk then ({ s2 with file := some html }, true) else (s2, false)

/-- The order of the side-effecting steps of `renderPage` (src/src/logic.ts,
lines 208-215): directory creation and stale-file removal precede
navigation, and the write happens only after a successful capture. -/
def renderPageTrace (navOk : Bool) : List String :=
  ["ensureDirectoryExistence", "deletePreviousFile", "goto"] ++
    (if navOk then ["content", "writeFile"] else ["throw"])

/-! ## Lemmas about splitting and joining paths -/

theorem splitOnCh_ne_nil (sep : Char) (xs : List Char) : splitOnCh sep xs ≠ [] := by
  induction xs with
  | nil => simp [splitOnCh]
  | cons c cs ih =>
    by_cases h : c = sep
    · simp [splitOnCh, h]
    · simp only [splitOnCh, if_neg h]
      cases hs : splitOnCh sep cs with
      | nil => exact absurd hs ih
      | cons s ss => simp [consHead]

theorem consHead_append (c : Char) (l1 l2 : List (List Char)) (h : l1 ≠ []) :
    consHead c (l1 ++ l2) = consHead c l1 ++ l2 := by
  cases l1 with
  | nil => exact absurd rfl h
  | cons s ss => simp [consHead]

theorem splitOnCh_append_sep (sep : Char) (xs ys : List Char) :
    splitOnCh sep (xs ++ sep :: ys) = splitOnCh sep xs ++ splitOnCh sep ys := by
  induction xs with
  | nil => simp [splitOnCh]
  | cons c cs ih =>
    by_cases h : c = sep
    · simp [splitOnCh, h, ih]
    · simp only [List.cons_append, splitOnCh, if_neg h]
      show consHead c (splitOnCh sep (cs ++ sep :: ys)) = consHead c (splitOnCh sep cs) ++ splitOnCh sep ys
      rw [ih, consHead_append c _ _ (splitOnCh_ne_nil sep cs)]

theorem splitOnCh_of_not_mem (sep : Char) (xs : List Char) (h : sep ∉ xs) :
    splitOnCh sep xs = [xs] := by
  induction xs with
  | nil => simp [splitOnCh]
  | cons c cs ih =>
    simp only [List.mem_cons, not_or] at h
    have hc : ¬ c = sep := fun hh => h.1 (by simp [hh])
    simp [splitOnCh, if_neg hc, ih h.2, consHead]

theorem not_mem_of_mem_splitOnCh (sep : Char) (xs : List Char) :
    ∀ s ∈ splitOnCh sep xs, sep ∉ s := by
  induction xs with
  | nil => simp [splitOnCh]
  | cons c cs ih =>
    by_cases h : c = sep
    · simp only [splitOnCh, if_pos h, List.mem_cons]
      rintro s (rfl | hs)
      · simp
      · exact ih s hs
    · simp only [splitOnCh, if_neg h]
      cases hs : splitOnCh sep cs with
      | nil => exact absurd hs (splitOnCh_ne_nil sep cs)
      | cons t ts =>
        simp only [consHead, List.mem_cons]
        rintro s (rfl | hmem)
        · have ht : sep ∉ t := ih t (by rw [hs]; exact List.mem_cons_self t ts)
          simp only [List.mem_cons, not_or]
          exact ⟨fun hh => h hh.symm, ht⟩
        · exact ih s (by rw [hs]; exact List.mem_cons_of_mem t hmem)

theorem intercalateCh_splitOnCh (sep : Char) (xs : List Char) :
    intercalateCh sep (splitOnCh sep xs) = xs := by
  induction xs with
  | nil => simp [splitOnCh, intercalateCh]
  | cons c cs ih =>
    by_cases h : c = sep
    · cases hs : splitOnCh sep cs with
      | nil => exact absurd hs (splitOnCh_ne_nil sep cs)
      | cons t ts =>
        subst h
        simp only [splitOnCh, if_pos rfl, hs, intercalateCh]
        rw [← hs, ih]
        simp
    · cases hs : splitOnCh sep cs with
      | nil => exact absurd hs (splitOnCh_ne_nil sep cs)
      | cons t ts =>
        simp only [splitOnCh, if_neg h, hs, consHead]
        cases ts with
        | nil =>
          simp only [intercalateCh]
          have := ih
          rw [hs] at this
          simp only [intercalateCh] at this
          simp [this]
        | cons u us =>
          simp only [intercalateCh, List.cons_append]
          have := ih
          rw [hs] at this
          simp only [intercalateCh] at this
          simp [this]

theorem intercalateCh_append (sep : Char) (l1 l2 : List (List Char))
    (h1 : l1 ≠ []) (h2 : l2 ≠ []) :
    intercalateCh sep (l1 ++ l2) = intercalateCh sep l1 ++ sep :: intercalateCh sep l2 := by
  induction l1 with
  | nil => exact absurd rfl h1
  | cons s ss ih =>
    cases ss with
    | nil =>
      cases l2 with
      | nil => exact absurd rfl h2
      | cons t ts => simp [intercalateCh]
    | cons u us =>
      have hrec := ih (by simp)
      simp only [List.cons_append] at hrec ⊢
      rw [show intercalateCh sep (s :: u :: (us ++ l2)) = s ++ sep :: intercalateCh sep (u :: (us ++ l2)) from rfl,
        show intercalateCh sep (s :: u :: us) = s ++ sep :: intercalateCh sep (u :: us) from rfl,
        hrec]
      simp

theorem splitOnCh_intercalateCh (sep : Char) (segs : List (List Char))
    (hfree : ∀ s ∈ segs, sep ∉ s) (hne : segs ≠ []) :
    splitOnCh sep (intercalateCh sep segs) = segs := by
  induction segs with
  | nil => exact absurd rfl hne
  | cons s ss ih =>
    cases ss with
    | nil =>
      simp only [intercalateCh]
      exact splitOnCh_of_not_mem sep s (hfree s (by simp))
    | cons t ts =>
      have hrec := ih (fun u hu => hfree u (List.mem_cons_of_mem s hu)) (by simp)
      have hshape : intercalateCh sep (s :: t :: ts) = s ++ sep :: intercalateCh sep (t :: ts) := by
        simp [intercalateCh]
      rw [hshape, splitOnCh_append_sep, splitOnCh_of_not_mem sep s (hfree s (by simp)), hrec]
      simp

/-! ## Lemmas about path normalization -/

theorem isEmpty_false_of_ne_nil {s : List Char} (h : s ≠ []) : s.isEmpty = false := by
  cases s with
  | nil => exact absurd rfl h
  | cons c cs => rfl

theorem foldl_normStep_plain (b : Bool) (l : List (List Char))
    (h : ∀ s ∈ l, s ≠ dotSeg ∧ s ≠ dotdotSeg) :
    ∀ acc, l.foldl (normStep b) acc = (l.filter (fun s => !s.isEmpty)).reverse ++ acc := by
  induction l with
  | nil => intro acc; simp
  | cons s ss ih =>
    intro acc
    have hs := h s (by simp)
    have hss : ∀ t ∈ ss, t ≠ dotSeg ∧ t ≠ dotdotSeg := fun t ht => h t (List.mem_cons_of_mem s ht)
    by_cases hnil : s = []
    · subst hnil
      have hstep : normStep b acc [] = acc := by simp [normStep]
      simp only [List.foldl_cons, hstep, List.filter_cons]
      simp [ih hss acc]
    · have hstep : normStep b acc s = s :: acc := by
        have h1 : ¬ (s = [] ∨ s = dotSeg) := by
          rintro (h' | h')
          · exact hnil h'
          · exact hs.1 h'
        simp [normStep, h1, hs.2]
      simp only [List.foldl_cons, hstep, List.filter_cons, isEmpty_false_of_ne_nil hnil]
      simp [ih hss (s :: acc)]

theorem normSegs_append_plain (b : Bool) (l1 l2 : List (List Char))
    (h : ∀ s ∈ l2, s ≠ dotSeg ∧ s ≠ dotdotSeg) :
    normSegs b (l1 ++ l2) = normSegs b l1 ++ l2.filter (fun s => !s.isEmpty) := by
  unfold normSegs
  rw [List.foldl_append, foldl_normStep_plain b l2 h]
  simp

theorem normSegs_plain (b : Bool) (l : List (List Char))
    (h : ∀ s ∈ l, s ≠ [] ∧ s ≠ dotSeg ∧ s ≠ dotdotSeg) :
    normSegs b l = l := by
  unfold normSegs
  rw [foldl_normStep_plain b l (fun s hs => (h s hs).2)]
  have : l.filter (fun s => !s.isEmpty) = l := by
    apply List.filter_eq_self.mpr
    intro s hs
    simp [isEmpty_false_of_ne_nil (h s hs).1]
  simp [this]

theorem getLastD_mem_of_ne_nil {α : Type} (l : List α) (d : α) (h : l ≠ []) :
    l.getLastD d ∈ l := by
  induction l with
  | nil => exact absurd rfl h
  | cons x xs ih =>
    cases xs with
    | nil => simp
    | cons y ys => exact List.mem_cons_of_mem x (ih (by simp))

/-- The final pathname handed to `path.join` by `getFilePath` is never empty
and never ends in a separator: each branch either appends `index.html` or
keeps a pathname that has an extension. -/
theorem modifiedPath_last (p : List Char) :
    modifiedPath p ≠ [] ∧ (modifiedPath p).getLast? ≠ some '/' := by
  unfold modifiedPath
  by_cases h1 : p.getLast? = some '/'
  · rw [if_pos h1]
    constructor
    · simp [ihChars]
    · rw [@List.getLast?_append_of_ne_nil Char p ihChars (by simp [ihChars])]
      decide
  · rw [if_neg h1]
    by_cases h2 : extnameChars p = []
    · rw [if_pos h2]
      constructor
      · simp
      · rw [List.getLast?_append_cons p '/' ihChars]
        decide
    · rw [if_neg h2]
      refine ⟨?_, h1⟩
      intro hp
      subst hp
      exact h2 (by decide)

/-- The segments of `index.html` heading: structure of `modifiedPath` at the
segment level, under the hypothesis that the pathname has no `.` or `..`
segments (true of every WHATWG-normalized pathname): appending the output
root contributes its own segments unchanged, followed by a non-empty,
dot-free suffix. -/
theorem modifiedPath_segments (b : Bool) (p out : List Char)
    (h : ∀ s ∈ splitSeg p, s ≠ dotSeg ∧ s ≠ dotdotSeg) :
    ∃ suff, normSegs b (splitSeg (out ++ '/' :: modifiedPath p))
        = normSegs b (splitSeg out) ++ suff
      ∧ suff ≠ [] ∧ ∀ s ∈ suff, s ≠ [] ∧ s ≠ dotSeg ∧ s ≠ dotdotSeg := by
  have hihdot : ihChars ≠ dotSeg ∧ ihChars ≠ dotdotSeg := by decide
  have hihne : ihChars ≠ [] := by decide
  have key : ∀ m : List Char, splitSeg m ≠ [] →
      (∀ s ∈ splitSeg m, s ≠ dotSeg ∧ s ≠ dotdotSeg) →
      (∃ s ∈ splitSeg m, s ≠ []) →
      ∃ suff, normSegs b (splitSeg (out ++ '/' :: m)) = normSegs b (splitSeg out) ++ suff
        ∧ suff ≠ [] ∧ ∀ s ∈ suff, s ≠ [] ∧ s ≠ dotSeg ∧ s ≠ dotdotSeg := by
    intro m hne hdot hwit
    refine ⟨(splitSeg m).filter (fun s => !s.isEmpty), ?_, ?_, ?_⟩
    · rw [show splitSeg (out ++ '/' :: m) = splitOnCh '/' (out ++ '/' :: m) from rfl,
        splitOnCh_append_sep '/' out m]
      exact normSegs_append_plain b _ _ hdot
    · obtain ⟨s, hsmem, hsne⟩ := hwit
      have : s ∈ (splitSeg m).filter (fun s => !s.isEmpty) :=
        List.mem_filter.mpr ⟨hsmem, by simp [isEmpty_false_of_ne_nil hsne]⟩
      exact fun hnil => by simp [hnil] at this
    · intro s hsf
      have hmem := List.mem_filter.mp hsf
      refine ⟨?_, (hdot s hmem.1).1, (hdot s hmem.1).2⟩
      intro hnil
      subst hnil
      simp at hmem
  have hsplit_ih : ∀ q : List Char, splitSeg (q ++ '/' :: ihChars) = splitSeg q ++ [ihChars] := by
    intro q
    rw [show splitSeg (q ++ '/' :: ihChars) = splitOnCh '/' (q ++ '/' :: ihChars) from rfl,
      splitOnCh_append_sep '/' q ihChars,
      splitOnCh_of_not_mem '/' ihChars (by decide)]
    rfl
  unfold modifiedPath
  by_cases h1 : p.getLast? = some '/'
  · rw [if_pos h1]
    have hdecomp : p.dropLast ++ ['/'] = p :=
      List.dropLast_append_getLast? '/' (Option.mem_def.mpr h1)
    have hm : p ++ ihChars = p.dropLast ++ '/' :: ihChars := by
      rw [← hdecomp]
      simp
    have hp : splitSeg p = splitSeg p.dropLast ++ [[]] := by
      conv_lhs => rw [← hdecomp]
      rw [show splitSeg (p.dropLast ++ ['/']) = splitOnCh '/' (p.dropLast ++ '/' :: []) from rfl,
        splitOnCh_append_sep '/' p.dropLast []]
      rfl
    apply key
    · rw [hm, hsplit_ih]
      simp
    · rw [hm, hsplit_ih]
      intro s hs
      rcases List.mem_append.mp hs with hl | hr
      · exact h s (by rw [hp]; exact List.mem_append_left _ hl)
      · simp only [List.mem_singleton] at hr
        subst hr
        exact hihdot
    · refine ⟨ihChars, ?_, hihne⟩
      rw [hm, hsplit_ih]
      simp
  · rw [if_neg h1]
    by_cases h2 : extnameChars p = []
    · rw [if_pos h2]
      apply key
      · rw [hsplit_ih]
        simp
      · rw [hsplit_ih]
        intro s hs
        rcases List.mem_append.mp hs with hl | hr
        · exact h s hl
        · simp only [List.mem_singleton] at hr
          subst hr
          exact hihdot
      · refine ⟨ihChars, ?_, hihne⟩
        rw [hsplit_ih]
        simp
    · rw [if_neg h2]
      apply key
      · exact splitOnCh_ne_nil '/' p
      · exact h
      · refine ⟨(splitSeg p).getLastD [], getLastD_mem_of_ne_nil _ _ (splitOnCh_ne_nil '/' p), ?_⟩
        intro hnil
        apply h2
        unfold extnameChars
        rw [hnil]
        decide

/-- When the output root is a plain relative path (non-empty, dot-free
segments) and the pathname is dot-free (as every parsed URL pathname is),
the mapped file path is the output root followed by a separator and a
remainder: the root is a path prefix of the result. -/
theorem getFilePath_root_prefix (p out : List Char)
    (hout : ∀ s ∈ splitSeg out, s ≠ [] ∧ s ≠ dotSeg ∧ s ≠ dotdotSeg)
    (hp : ∀ s ∈ splitSeg p, s ≠ dotSeg ∧ s ≠ dotdotSeg) :
    ∃ rest, getFilePathChars p out = out ++ '/' :: rest := by
  obtain ⟨suff, hseg, hsne, hsdot⟩ := modifiedPath_segments true p out hp
  have houtne : out ≠ [] := by
    intro h0
    subst h0
    exact (hout [] (by simp [splitSeg, splitOnCh])).1 rfl
  have houthead : out.head? ≠ some '/' := by
    intro hh
    cases out with
    | nil => simp at hh
    | cons c cs =>
      simp only [List.head?_cons, Option.some.injEq] at hh
      subst hh
      exact (hout [] (by simp [splitSeg, splitOnCh])).1 rfl
  have habs : ¬ ((out ++ '/' :: modifiedPath p).head? = some '/') := by
    cases out with
    | nil => exact absurd rfl houtne
    | cons c cs => exact houthead
  obtain ⟨hmne, hmlast⟩ := modifiedPath_last p
  have htrail : ¬ ((out ++ '/' :: modifiedPath p).getLast? = some '/') := by
    rw [List.getLast?_append_cons out '/' (modifiedPath p)]
    cases hm : modifiedPath p with
    | nil => exact absurd hm hmne
    | cons d ds =>
      rw [List.getLast?_cons_cons]
      rw [hm] at hmlast
      exact hmlast
  have hcore : intercalateSlash (normSegs true (splitSeg (out ++ '/' :: modifiedPath p)))
      = out ++ '/' :: intercalateSlash suff := by
    rw [hseg, normSegs_plain true (splitSeg out) hout,
      show intercalateSlash (splitSeg out ++ suff) = intercalateCh '/' (splitOnCh '/' out ++ suff) from rfl,
      intercalateCh_append '/' _ suff (splitOnCh_ne_nil '/' out) hsne,
      intercalateCh_splitOnCh '/' out]
    rfl
  have hcorene : out ++ '/' :: intercalateSlash suff ≠ [] := by
    cases out with
    | nil => exact absurd rfl houtne
    | cons c cs => simp
  refine ⟨intercalateSlash suff, ?_⟩
  unfold getFilePathChars pathJoinChars
  simp only [if_neg habs, hcore, if_neg hcorene, if_neg htrail]
  simp only [List.append_nil]

/-! ## Lemmas about WHATWG URL path normalization -/

theorem urlSegsAux_no_dots (l : List (List Char)) :
    ∀ acc, (∀ s ∈ acc, s ≠ dotSeg ∧ s ≠ dotdotSeg) →
      ∀ s ∈ urlSegsAux acc l, s ≠ dotSeg ∧ s ≠ dotdotSeg := by
  induction l with
  | nil =>
    intro acc hacc s hs
    simp only [urlSegsAux, List.mem_reverse] at hs
    exact hacc s hs
  | cons t rest ih =>
    intro acc hacc s hs
    have htail : ∀ u ∈ acc.tail, u ≠ dotSeg ∧ u ≠ dotdotSeg := by
      intro u hu
      exact hacc u (List.mem_of_mem_tail hu)
    have hnilseg : (([] : List Char) ≠ dotSeg ∧ ([] : List Char) ≠ dotdotSeg) := by decide
    by_cases h2 : t = dotdotSeg
    · simp only [urlSegsAux, if_pos h2] at hs
      by_cases hr : rest = []
      · rw [if_pos hr] at hs
        refine ih ([] :: acc.tail) ?_ s hs
        intro u hu
        rcases List.mem_cons.mp hu with rfl | hu2
        · exact hnilseg
        · exact htail u hu2
      · rw [if_neg hr] at hs
        exact ih acc.tail htail s hs
    · by_cases h1 : t = dotSeg
      · simp only [urlSegsAux, if_neg h2, if_pos h1] at hs
        by_cases hr : rest = []
        · rw [if_pos hr] at hs
          refine ih ([] :: acc) ?_ s hs
          intro u hu
          rcases List.mem_cons.mp hu with rfl | hu2
          · exact hnilseg
          · exact hacc u hu2
        · rw [if_neg hr] at hs
          exact ih acc hacc s hs
      · simp only [urlSegsAux, if_neg h2, if_neg h1] at hs
        refine ih (t :: acc) ?_ s hs
        intro u hu
        rcases List.mem_cons.mp hu with rfl | hu2
        · exact ⟨h1, h2⟩
        · exact hacc u hu2

theorem urlSegsAux_slash_free (l : List (List Char)) :
    ∀ acc, (∀ s ∈ l, '/' ∉ s) → (∀ s ∈ acc, '/' ∉ s) →
      ∀ s ∈ urlSegsAux acc l, '/' ∉ s := by
  induction l with
  | nil =>
    intro acc _ hacc s hs
    simp only [urlSegsAux, List.mem_reverse] at hs
    exact hacc s hs
  | cons t rest ih =>
    intro acc hl hacc s hs
    have hlrest : ∀ s ∈ rest, '/' ∉ s := fun s h => hl s (List.mem_cons_of_mem t h)
    have htail : ∀ u ∈ acc.tail, '/' ∉ u := fun u hu => hacc u (List.mem_of_mem_tail hu)
    have hnil : '/' ∉ ([] : List Char) := by simp
    by_cases h2 : t = dotdotSeg
    · simp only [urlSegsAux, if_pos h2] at hs
      by_cases hr : rest = []
      · rw [if_pos hr] at hs
        refine ih ([] :: acc.tail) hlrest ?_ s hs
        intro u hu
        rcases List.mem_cons.mp hu with rfl | hu2
        · exact hnil
        · exact htail u hu2
      · rw [if_neg hr] at hs
        exact ih acc.tail hlrest htail s hs
    · by_cases h1 : t = dotSeg
      · simp only [urlSegsAux, if_neg h2, if_pos h1] at hs
        by_cases hr : rest = []
        · rw [if_pos hr] at hs
          refine ih ([] :: acc) hlrest ?_ s hs
          intro u hu
          rcases List.mem_cons.mp hu with rfl | hu2
          · exact hnil
          · exact hacc u hu2
        · rw [if_neg hr] at hs
          exact ih acc hlrest hacc s hs
      · simp only [urlSegsAux, if_neg h2, if_neg h1] at hs
        refine ih (t :: acc) hlrest ?_ s hs
        intro u hu
        rcases List.mem_cons.mp hu with rfl | hu2
        · exact hl _ (by simp)
        · exact hacc u hu2

theorem urlSegsAux_ne_nil (l : List (List Char)) :
    ∀ acc, (l ≠ [] ∨ acc ≠ []) → urlSegsAux acc l ≠ [] := by
  induction l with
  | nil =>
    intro acc h
    rcases h with h | h
    · exact absurd rfl h
    · simp only [urlSegsAux]
      simpa using h
  | cons t rest ih =>
    intro acc _
    by_cases h2 : t = dotdotSeg
    · simp only [urlSegsAux, if_pos h2]
      by_cases hr : rest = []
      · rw [if_pos hr]
        exact ih ([] :: acc.tail) (Or.inr (by simp))
      · rw [if_neg hr]
        exact ih acc.tail (Or.inl hr)
    · by_cases h1 : t = dotSeg
      · simp only [urlSegsAux, if_neg h2, if_pos h1]
        by_cases hr : rest = []
        · rw [if_pos hr]
          exact ih ([] :: acc) (Or.inr (by simp))
        · rw [if_neg hr]
          exact ih acc (Or.inl hr)
      · simp only [urlSegsAux, if_neg h2, if_neg h1]
        exact ih (t :: acc) (Or.inr (by simp))

/-- Every pathname produced by WHATWG URL parsing is free of `.` and `..`
segments: parsing resolves them, so no parsed URL can make `getFilePath`
escape the output root. -/
theorem urlPathname_dotFree (raw : List Char) :
    ∀ s ∈ splitSeg (urlPathnameChars raw), s ≠ dotSeg ∧ s ≠ dotdotSeg := by
  intro s hs
  have hsegsfree : ∀ t ∈ urlSegsAux [] (splitSeg (stripLeadingSlash raw)), '/' ∉ t :=
    urlSegsAux_slash_free _ []
      (not_mem_of_mem_splitOnCh '/' (stripLeadingSlash raw)) (by simp)
  have hsegsne : urlSegsAux [] (splitSeg (stripLeadingSlash raw)) ≠ [] :=
    urlSegsAux_ne_nil _ [] (Or.inl (splitOnCh_ne_nil '/' _))
  have hsplit : splitSeg (urlPathnameChars raw)
      = [] :: urlSegsAux [] (splitSeg (stripLeadingSlash raw)) := by
    have h1 : splitSeg (urlPathnameChars raw)
        = [] :: splitOnCh '/' (intercalateCh '/' (urlSegsAux [] (splitSeg (stripLeadingSlash raw)))) := by
      show splitOnCh '/' ('/' :: intercalateCh '/' (urlSegsAux [] (splitSeg (stripLeadingSlash raw)))) = _
      simp [splitOnCh]
    rw [h1, splitOnCh_intercalateCh '/' _ hsegsfree hsegsne]
  rw [hsplit] at hs
  rcases List.mem_cons.mp hs with rfl | hmem
  · exact ⟨by decide, by decide⟩
  · exact urlSegsAux_no_dots _ [] (by simp) s hmem

/-! ## Lemmas about the URL rewriter and the queue -/

/-- When `old` is a leading prefix of `s`, the first occurrence replaced by
the JavaScript `replace` method is exactly that leading prefix. -/
theorem replaceFirstChars_of_prefix (old new s : List Char)
    (h : List.isPrefixOf old s = true) :
    replaceFirstChars old new s = new ++ s.drop old.length := by
  cases s with
  | nil =>
    have : old = [] := List.prefix_nil.mp (List.isPrefixOf_iff_prefix.mp h)
    subst this
    simp [replaceFirstChars]
  | cons c cs => simp [replaceFirstChars, h]

/-- Parsing a well-formed replace rule `new=old` (neither side containing
`=`) recovers the two prefixes. -/
theorem parseUrlReplacement_of_wf (n o : List Char)
    (hn : ('=' : Char) ∉ n) (ho : ('=' : Char) ∉ o) :
    parseUrlReplacement (String.mk (n ++ '=' :: o)) = ⟨String.mk n, String.mk o⟩ := by
  unfold parseUrlReplacement
  rw [show (String.mk (n ++ '=' :: o)).data = n ++ '=' :: o from rfl,
    splitOnCh_append_sep '=' n o,
    splitOnCh_of_not_mem '=' n hn, splitOnCh_of_not_mem '=' o ho]
  rfl

/-- The worker loop renders each queued URL exactly once, in FIFO order,
after applying the rewrite: the rendered sequence is the rewrite mapped over
the queue. -/
theorem processQueueUrls_eq_map (rep : Option UrlReplacement) (queue : List String) :
    processQueueUrls rep queue = queue.map (applyReplacement rep) := by
  induction queue with
  | nil => rfl
  | cons url rest ih => simp [processQueueUrls, ih]

/-! ## Lemmas about the retry wrapper -/

/-- When every attempt fails, the attempt loop starting at `attempt = a`
with `k + 1` attempts allowed performs exactly `k + 1` attempts, sleeps the
backoff-plus-jitter wait after each attempt but the last, and ends fatally. -/
theorem retryGo_all_fail (ok : Nat → Bool) (rand : Nat → ℚ)
    (hfail : ∀ i, ok i = false) :
    ∀ k a, retryGo ok rand a (k + 1)
      = (k + 1, (List.range k).map (fun j => backoffMs (a + j) + rand (a + j) * 1000), false) := by
  intro k
  induction k with
  | zero =>
    intro a
    simp [retryGo, hfail a]
  | succ k ih =>
    intro a
    have hrec := ih (a + 1)
    have hstep : retryGo ok rand a (k + 1 + 1)
        = ((retryGo ok rand (a + 1) (k + 1)).1 + 1,
           (backoffMs a + rand a * 1000) :: (retryGo ok rand (a + 1) (k + 1)).2.1,
           (retryGo ok rand (a + 1) (k + 1)).2.2) := by
      show (if ok a = true then (1, ([] : List ℚ), true)
          else if k + 1 = 0 then (1, [], false)
          else ((retryGo ok rand (a + 1) (k + 1)).1 + 1,
            (backoffMs a + rand a * 1000) :: (retryGo ok rand (a + 1) (k + 1)).2.1,
            (retryGo ok rand (a + 1) (k + 1)).2.2)) = _
      simp [hfail a]
    rw [hstep, hrec, List.range_succ_eq_map]
    simp only [List.map_cons, List.map_map, Nat.add_zero, Prod.mk.injEq, List.cons.injEq,
      true_and, and_true]
    apply List.map_congr_left
    intro j _
    simp only [Function.comp]
    have harith : a + 1 + j = a + (j + 1) := by omega
    rw [harith]

/-! ## Lemmas about the render file-system effects -/

/-- A successful `renderPage` call always leaves the directory created and
the rendered markup written at the mapped path, whatever the prior state. -/
theorem renderPage_success_state (html : String) (s : PathState) :
    renderPage true html s = (⟨true, some html⟩, true) := by
  obtain ⟨d, f⟩ := s
  cases d <;> cases f <;> simp [renderPage, ensureDirectoryExistence, deletePreviousFile]

/-- A failed `renderPage` call leaves the directory created and no file at
the mapped path: the stale file was already removed before navigation. -/
theorem renderPage_failure_state (html : String) (s : PathState) :
    renderPage false html s = (⟨true, none⟩, false) := by
  obtain ⟨d, f⟩ := s
  cases d <;> cases f <;> simp [renderPage, ensureDirectoryExistence, deletePreviousFile]

/-! ## Claims -/

/-- C1 counterexample: on a two-entry sitemap index whose first entry
references a sub-sitemap that is itself a two-entry index of urlsets and
whose second references a urlset, the resolver `getUrls` yields only the
second urlset (the nested index contributes nothing), while the depth-first
pre-order concatenation demanded by the claim — computed here by
`processSitemapIndex` — contains all six URLs; and on a single-entry sitemap
index the recursive resolver `processSitemapIndex` does not produce that
concatenation at all: its `for...of` iterates the non-array object parsed
from the single entry and throws a `TypeError` (`none`). -/
theorem claim_c1_counterexample :
    getUrls (.indexDocs [.indexDocs [.urlsetMany [⟨"http://a/1"⟩, ⟨"http://a/2"⟩],
        .urlsetMany [⟨"http://b/1"⟩, ⟨"http://b/2"⟩]],
      .urlsetMany [⟨"http://c/1"⟩, ⟨"http://c/2"⟩]])
      = some ["http://c/1", "http://c/2"]
    ∧ processSitemapIndex (.indexDocs [.indexDocs [.urlsetMany [⟨"http://a/1"⟩, ⟨"http://a/2"⟩],
        .urlsetMany [⟨"http://b/1"⟩, ⟨"http://b/2"⟩]],
      .urlsetMany [⟨"http://c/1"⟩, ⟨"http://c/2"⟩]])
      = some ["http://a/1", "http://a/2", "http://b/1", "http://b/2", "http://c/1", "http://c/2"]
    ∧ getUrls (.indexDocs [.indexDocs [.urlsetMany [⟨"http://a/1"⟩, ⟨"http://a/2"⟩],
        .urlsetMany [⟨"http://b/1"⟩, ⟨"http://b/2"⟩]],
      .urlsetMany [⟨"http://c/1"⟩, ⟨"http://c/2"⟩]])
      ≠ some ["http://a/1", "http://a/2", "http://b/1", "http://b/2", "http://c/1", "http://c/2"]
    ∧ processSitemapIndex (.indexOneDoc (.urlsetMany [⟨"http://c/1"⟩, ⟨"http://c/2"⟩])) = none := by
  refine ⟨rfl, rfl, ?_, rfl⟩
  have h1 : getUrls (.indexDocs [.indexDocs [.urlsetMany [⟨"http://a/1"⟩, ⟨"http://a/2"⟩],
        .urlsetMany [⟨"http://b/1"⟩, ⟨"http://b/2"⟩]],
      .urlsetMany [⟨"http://c/1"⟩, ⟨"http://c/2"⟩]])
      = some ["http://c/1", "http://c/2"] := rfl
  rw [h1]
  simp

/-- C1 amended: over array-encoded (multi-entry) sitemap indexes the
recursive resolver `processSitemapIndex` expands nested references
depth-first — the result for an index is the resolution of the first child
followed by the resolution of the remaining siblings, with a thrown error
propagated — and urlsets resolve to their entries in document order; but a
single-entry sitemap index makes `processSitemapIndex` throw a `TypeError`
(its `for...of` iterates a non-array object).  The resolver `getUrls`
expands exactly one level of sitemap index: each referenced sub-sitemap is
parsed as a URL set only (with single-entry index normalization at the top
level), and a sub-sitemap that is itself an index contributes no URLs. -/
theorem claim_c1_amended :
    (∀ (t : XmlNode) (ts : List XmlNode),
      processSitemapIndex (.indexDocs (t :: ts))
        = Option.bind (processSitemapIndex t) (fun us =>
            Option.bind (processSitemapIndex (.indexDocs ts)) (fun rest => some (us ++ rest))))
    ∧ processSitemapIndex (.indexDocs []) = some []
    ∧ (∀ u : UrlEntry, processSitemapIndex (.urlsetOne u) = some [UrlEntry.loc u])
    ∧ (∀ us : List UrlEntry, processSitemapIndex (.urlsetMany us) = some (us.map UrlEntry.loc))
    ∧ (∀ t : XmlNode, processSitemapIndex (.indexOneDoc t) = none)
    ∧ (∀ (t : XmlNode) (ts : List XmlNode),
      getUrls (.indexDocs (t :: ts))
        = Option.bind (parseSitemap t) (fun us =>
            Option.bind (getUrls (.indexDocs ts)) (fun rest => some (us ++ rest))))
    ∧ getUrls (.indexDocs []) = some []
    ∧ (∀ t : XmlNode, getUrls (.indexOneDoc t) = parseSitemap t)
    ∧ (∀ ts : List XmlNode, parseSitemap (.indexDocs ts) = some [])
    ∧ (∀ t : XmlNode, parseSitemap (.indexOneDoc t) = some []) := by
  refine ⟨?_, rfl, fun u => rfl, fun us => rfl, fun t => rfl, ?_, rfl, ?_, fun ts => rfl,
    fun t => rfl⟩
  · intro t ts
    cases ht : processSitemapIndex t with
    | none => simp [processSitemapIndex, processSitemapList, ht]
    | some us =>
      cases hts : processSitemapList ts with
      | none => simp [processSitemapIndex, processSitemapList, ht, hts]
      | some rest => simp [processSitemapIndex, processSitemapList, ht, hts]
  · intro t ts
    cases ht : parseSitemap t with
    | none => simp [getUrls, getUrlsLoop, ht]
    | some us =>
      cases hts : getUrlsLoop ts with
      | none => simp [getUrls, getUrlsLoop, ht, hts]
      | some rest => simp [getUrls, getUrlsLoop, ht, hts]
  · intro t
    cases ht : parseSitemap t with
    | none => simp [getUrls, getUrlsLoop, ht]
    | some us => simp [getUrls, getUrlsLoop, ht]

/-- C2 counterexample: with the rule replacing the prefix
`http://old.com` by `http://new.com`, the shared queue is seeded by
`renderPages` with the original, un-rewritten URL, and the rewrite is
applied by the worker after the URL is dequeued — the claim that every URL
is rewritten before being queued is false on this input. -/
theorem claim_c2_counterexample :
    initialQueue ["http://old.com/a"] = ["http://old.com/a"]
    ∧ applyReplacement (some ⟨"http://new.com", "http://old.com"⟩) "http://old.com/a"
        = "http://new.com/a"
    ∧ initialQueue ["http://old.com/a"]
        ≠ ["http://old.com/a"].map (applyReplacement (some ⟨"http://new.com", "http://old.com"⟩))
    ∧ processQueueUrls (some ⟨"http://new.com", "http://old.com"⟩)
        (initialQueue ["http://old.com/a"]) = ["http://new.com/a"] := by
  refine ⟨rfl, by decide, by decide, by decide⟩

/-- C2 amended: `renderPages` seeds the queue with the original URLs and
each worker applies the rewrite exactly once, immediately after dequeuing a
URL and before rendering it, so the sequence of rendered URLs equals the
rewrite mapped over the input list and path-mapping determinism is
preserved. -/
theorem claim_c2_amended (rep : Option UrlReplacement) (urls : List String) :
    initialQueue urls = urls
    ∧ processQueueUrls rep (initialQueue urls) = urls.map (applyReplacement rep) :=
  ⟨rfl, processQueueUrls_eq_map rep urls⟩

/-- C3: when every attempt fails, `retryRenderPage` performs exactly
`maxRetries + 1` attempts before surfacing the fatal failure, and after the
failed attempt numbered `j` (0-based, not the last) it waits
`min(2 ^ j * 1000, 8000)` milliseconds plus a jitter `rand j * 1000` lying
in `[0, 1000)` for `rand j` drawn from `[0, 1)`. -/
theorem claim_c3 (maxRetries : Nat) (ok : Nat → Bool) (rand : Nat → ℚ)
    (hfail : ∀ i, ok i = false) (hrand : ∀ i, 0 ≤ rand i ∧ rand i < 1) :
    (retryRenderPage maxRetries ok rand).1 = maxRetries + 1
    ∧ (retryRenderPage maxRetries ok rand).2.2 = false
    ∧ (retryRenderPage maxRetries ok rand).2.1
        = (List.range maxRetries).map (fun j => backoffMs j + rand j * 1000)
    ∧ (∀ j, backoffMs j = min (2 ^ j * 1000) 8000)
    ∧ (∀ j, backoffMs j ≤ backoffMs j + rand j * 1000
        ∧ backoffMs j + rand j * 1000 < backoffMs j + 1000) := by
  have h := retryGo_all_fail ok rand hfail maxRetries 0
  have hzero : (fun j => backoffMs (0 + j) + rand (0 + j) * 1000)
      = (fun j => backoffMs j + rand j * 1000) := by
    funext j
    simp
  unfold retryRenderPage
  rw [h, hzero]
  refine ⟨rfl, rfl, rfl, fun j => rfl, ?_⟩
  intro j
  obtain ⟨h0, h1⟩ := hrand j
  constructor
  · have : 0 ≤ rand j * 1000 := by positivity
    linarith
  · have : rand j * 1000 < 1 * 1000 := by
      apply mul_lt_mul_of_pos_right h1
      norm_num
    linarith

/-- C3 witness: with `maxRetries = 2`, every attempt failing and the random
draw constantly one half, the wrapper performs three attempts, waits 1500
then 2500 milliseconds, and ends fatally. -/
theorem claim_c3_witness :
    (retryRenderPage 2 (fun _ => false) (fun _ => 1 / 2)).1 = 3
    ∧ (retryRenderPage 2 (fun _ => false) (fun _ => 1 / 2)).2.2 = false := by
  have h := claim_c3 2 (fun _ => false) (fun _ => (1 : ℚ) / 2)
    (fun i => rfl) (fun i => by norm_num)
  exact ⟨h.1, h.2.1⟩

/-- C4: the path mapper is a pure function of the URL and output root; a
pathname ending in `/` maps to that path with `index.html` appended (so the
root URL of `example.com` maps to `output/index.html`), a pathname with no
extension maps to that path with `/index.html` appended (so `/page` maps to
`output/page/index.html`); WHATWG URL parsing leaves no `.` or `..` segment
in any pathname, and for every such dot-free pathname the mapped path starts
with the output root followed by a separator, the joined segments being the
root segments followed by a non-empty suffix free of `.` and `..` — the
mapped path never escapes the output root. -/
theorem claim_c4 :
    getFilePath (mkUrl "example.com" "/") "output" = "output/index.html"
    ∧ getFilePath (mkUrl "example.com" "/page") "output" = "output/page/index.html"
    ∧ (∀ (u : ParsedUrl) (out : String),
        (ParsedUrl.pathname u).data.getLast? = some '/' →
        getFilePath u out
          = String.mk (pathJoinChars out.data ((ParsedUrl.pathname u).data ++ ihChars)))
    ∧ (∀ (u : ParsedUrl) (out : String),
        (ParsedUrl.pathname u).data.getLast? ≠ some '/' →
        extnameChars (ParsedUrl.pathname u).data = [] →
        getFilePath u out
          = String.mk (pathJoinChars out.data ((ParsedUrl.pathname u).data ++ '/' :: ihChars)))
    ∧ (∀ raw : List Char, ∀ s ∈ splitSeg (urlPathnameChars raw), s ≠ dotSeg ∧ s ≠ dotdotSeg)
    ∧ (∀ (b : Bool) (u : ParsedUrl) (out : String),
        (∀ s ∈ splitSeg (ParsedUrl.pathname u).data, s ≠ dotSeg ∧ s ≠ dotdotSeg) →
        ∃ suff, normSegs b (splitSeg (out.data ++ '/' :: modifiedPath (ParsedUrl.pathname u).data))
            = normSegs b (splitSeg out.data) ++ suff
          ∧ suff ≠ [] ∧ ∀ s ∈ suff, s ≠ [] ∧ s ≠ dotSeg ∧ s ≠ dotdotSeg)
    ∧ (∀ (u : ParsedUrl) (out : String),
        (∀ s ∈ splitSeg out.data, s ≠ [] ∧ s ≠ dotSeg ∧ s ≠ dotdotSeg) →
        (∀ s ∈ splitSeg (ParsedUrl.pathname u).data, s ≠ dotSeg ∧ s ≠ dotdotSeg) →
        ∃ rest, (getFilePath u out).data = out.data ++ '/' :: rest) := by
  refine ⟨by decide, by decide, ?_, ?_, ?_, ?_, ?_⟩
  · intro u out h
    unfold getFilePath getFilePathChars modifiedPath
    rw [if_pos h]
  · intro u out h1 h2
    unfold getFilePath getFilePathChars modifiedPath
    rw [if_neg h1, if_pos h2]
  · exact urlPathname_dotFree
  · intro b u out h
    exact modifiedPath_segments b (ParsedUrl.pathname u).data out.data h
  · intro u out hout hp
    exact getFilePath_root_prefix (ParsedUrl.pathname u).data out.data hout hp

/-- C4 witness: for the URL path `/a/b` and root `output` the mapped path
starts with `output/`. -/
theorem claim_c4_witness :
    ∃ rest, (getFilePath (mkUrl "example.com" "/a/b") "output").data
      = "output".data ++ '/' :: rest :=
  claim_c4.2.2.2.2.2.2 (mkUrl "example.com" "/a/b") "output" (by decide) (by decide)

/-- C5: parsing the rule string `new=old` (neither side containing `=`)
yields the two prefixes; rewriting a URL list maps the per-URL rewrite over
it, preserving length; a URL beginning with the old prefix has exactly that
leading prefix replaced by the new prefix (the result is the new prefix
followed by the remainder of the URL), and a URL not beginning with the old
prefix is returned unchanged. -/
theorem claim_c5 (n o : List Char) (hn : ('=' : Char) ∉ n) (ho : ('=' : Char) ∉ o)
    (urls : List String) :
    parseUrlReplacement (String.mk (n ++ '=' :: o)) = ⟨String.mk n, String.mk o⟩
    ∧ (urls.map (applyReplacement (some ⟨String.mk n, String.mk o⟩))).length = urls.length
    ∧ (∀ url : String, List.isPrefixOf o url.data = true →
        applyReplacement (some ⟨String.mk n, String.mk o⟩) url
          = String.mk (n ++ url.data.drop o.length))
    ∧ (∀ url : String, ¬ List.isPrefixOf o url.data = true →
        applyReplacement (some ⟨String.mk n, String.mk o⟩) url = url) := by
  refine ⟨parseUrlReplacement_of_wf n o hn ho, List.length_map urls _, ?_, ?_⟩
  · intro url h
    show (if List.isPrefixOf o url.data = true then
        String.mk (replaceFirstChars o n url.data) else url)
      = String.mk (n ++ url.data.drop o.length)
    rw [if_pos h, replaceFirstChars_of_prefix o n url.data h]
  · intro url h
    show (if List.isPrefixOf o url.data = true then
        String.mk (replaceFirstChars o n url.data) else url) = url
    rw [if_neg h]

/-- C5 witness: the rule `http://new.com=http://old.com` rewrites
`http://old.com/x` to the new prefix followed by `/x`, and leaves
`http://other.org/x` unchanged. -/
theorem claim_c5_witness :
    applyReplacement (some ⟨"http://new.com", "http://old.com"⟩) "http://old.com/x"
      = String.mk ("http://new.com".data ++ "http://old.com/x".data.drop "http://old.com".data.length)
    ∧ applyReplacement (some ⟨"http://new.com", "http://old.com"⟩) "http://other.org/x"
      = "http://other.org/x" := by
  have h := claim_c5 "http://new.com".data "http://old.com".data (by decide) (by decide) []
  exact ⟨h.2.2.1 "http://old.com/x" (by decide), h.2.2.2 "http://other.org/x" (by decide)⟩

/-- C6: parsing a urlset sitemap with N entries yields exactly the N `loc`
values in document order, and the single-entry encoding (where the XML
parser produces one object rather than an array) is normalized to a
one-element sequence. -/
theorem claim_c6 (us : List UrlEntry) (u : UrlEntry) :
    parseSitemap (.urlsetMany us) = some (us.map UrlEntry.loc)
    ∧ (us.map UrlEntry.loc).length = us.length
    ∧ parseSitemap (.urlsetOne u) = some [UrlEntry.loc u] :=
  ⟨rfl, List.length_map us UrlEntry.loc, rfl⟩

/-- C7 counterexample: starting from a state with a stale file at the mapped
path, a failed render attempt leaves the file system at that path changed —
the stale file has been deleted before navigation, so failure does not leave
the mapped path unchanged as the claim states. -/
theorem claim_c7_counterexample :
    (renderPage false "new" ⟨true, some "stale"⟩).2 = false
    ∧ (renderPage false "new" ⟨true, some "stale"⟩).1.file = none
    ∧ (renderPage false "new" ⟨true, some "stale"⟩).1 ≠ ⟨true, some "stale"⟩ := by
  refine ⟨rfl, rfl, by decide⟩

/-- C7 amended: directory creation and stale-file removal happen before
navigation; on success the rendered HTML is written to the mapped path after
both, so a successful render leaves the directory created and the new
content in place — but a failed attempt leaves the directory created and no
file at the mapped path, the pre-existing file having already been
removed. -/
theorem claim_c7_amended (s : PathState) (html : String) :
    renderPage true html s = (⟨true, some html⟩, true)
    ∧ renderPage false html s = (⟨true, none⟩, false)
    ∧ renderPageTrace true
        = ["ensureDirectoryExistence", "deletePreviousFile", "goto", "content", "writeFile"]
    ∧ renderPageTrace false
        = ["ensureDirectoryExistence", "deletePreviousFile", "goto", "throw"] :=
  ⟨renderPage_success_state html s, renderPage_failure_state html s, rfl, rfl⟩

/-- C8 counterexample: content such as a `urlset` element holding a bare
`loc` child parses to a truthy `urlset` whose `url` member is undefined — a
shape that is neither a URL-set nor a sitemap-index — and on it
`parseSitemap` does not return the empty sequence: `Array.isArray` fails and
evaluating `sitemap.urlset.url.loc` throws a `TypeError` (`none`). -/
theorem claim_c8_counterexample :
    parseSitemap .urlsetNoUrl = none
    ∧ parseSitemap .urlsetNoUrl ≠ some [] := by
  refine ⟨rfl, ?_⟩
  intro h
  simp [parseSitemap] at h

/-- C8 amended: content whose parsed shape has no truthy `urlset` key at all
(empty or malformed input, and also sitemap-index content) parses to an
empty URL sequence with no error raised; but content parsing to a truthy
`urlset` without a `url` member — neither a URL-set nor a sitemap-index
shape — makes `parseSitemap` throw a `TypeError`. -/
theorem claim_c8 (d : XmlNode)
    (h1 : ∀ u, d ≠ .urlsetOne u) (h2 : ∀ us, d ≠ .urlsetMany us)
    (h3 : d ≠ .urlsetNoUrl) :
    parseSitemap d = some [] := by
  cases d with
  | urlsetOne u => exact absurd rfl (h1 u)
  | urlsetMany us => exact absurd rfl (h2 us)
  | urlsetNoUrl => exact absurd rfl h3
  | indexOneDoc t => rfl
  | indexDocs ts => rfl
  | indexNoSitemap => rfl
  | otherDoc => rfl

/-- C8 witness: the malformed document parses to the empty sequence. -/
theorem claim_c8_witness : parseSitemap .otherDoc = some [] :=
  claim_c8 .otherDoc (fun _ h => XmlNode.noConfusion h)
    (fun _ h => XmlNode.noConfusion h) (fun h => XmlNode.noConfusion h)

/-- C9: the path mapper reads only the pathname component of the parsed URL,
so two URLs with equal pathname but different scheme, host, port, query or
fragment map to the same file path for every output root; and at a shared
mapped path the later successful render overwrites the earlier one. -/
theorem claim_c9 (u1 u2 : ParsedUrl) (out : String)
    (h : ParsedUrl.pathname u1 = ParsedUrl.pathname u2) :
    getFilePath u1 out = getFilePath u2 out
    ∧ ∀ (s : PathState) (h1 h2 : String),
        (renderPage true h2 (renderPage true h1 s).1).1.file = some h2 := by
  constructor
  · unfold getFilePath
    rw [h]
  · intro s h1 h2
    rw [renderPage_success_state h1 s, renderPage_success_state h2 ⟨true, some h1⟩]

/-- C9 witness: URLs on different hosts, ports, schemes, query strings and
fragments but with pathname `/page` map to the same output file. -/
theorem claim_c9_witness :
    getFilePath ⟨"http:", "a.com", "", "?q=1", "", "/page"⟩ "output"
      = getFilePath ⟨"https:", "b.org", "8080", "", "#frag", "/page"⟩ "output" :=
  (claim_c9 ⟨"http:", "a.com", "", "?q=1", "", "/page"⟩
    ⟨"https:", "b.org", "8080", "", "#frag", "/page"⟩ "output" rfl).1

/-- C10: when `parallelRenders` is zero or negative, the worker-creation
loop of `renderPages` runs zero times, so no page is rendered and no file is
written, and `Promise.all` of the empty task list resolves successfully. -/
theorem claim_c10 (parallelRenders : Int) (rep : Option UrlReplacement)
    (urls : List String) (_hurls : urls ≠ []) (hp : parallelRenders ≤ 0) :
    workerCountOf parallelRenders = 0
    ∧ renderPages parallelRenders rep urls = ([], true) := by
  have hw : workerCountOf parallelRenders = 0 := by
    unfold workerCountOf
    omega
  refine ⟨hw, ?_⟩
  unfold renderPages
  rw [if_pos hw]

/-- C10 witness: with zero workers and a one-URL list the coordinator
renders nothing and reports success. -/
theorem claim_c10_witness :
    workerCountOf 0 = 0 ∧ renderPages 0 none ["http://example.com/"] = ([], true) :=
  claim_c10 0 none ["http://example.com/"] (by decide) (by decide)

end Siterender
